import Mathlib

/-!
Shallow embedding of the nu_plugin_nickel cross-boundary object cache
(src/cache.rs, src/lib.rs, src/nickel/values/nu_nickel_value/mod.rs,
src/nickel/values/nu_nickel_value/custom_value.rs,
src/nickel/command/core/eval.rs).

Modelling conventions:
- `Uuid` is modelled as `Nat`; `Uuid::new_v4()` is an external source of
  identifiers, so every insert operation takes the generated identifier as an
  explicit argument.
- `DateTime<Utc>` is modelled as `Int` (a point on an abstract time line);
  `Utc::now()` is likewise an explicit argument.  `chrono::Duration::hours(h)`
  is modelled as the integer `h` (one time unit = one hour).
- `nu_protocol::Span` is an opaque token, modelled as `Nat`.
- The `i16` reference count is modelled as an `Int` on which every mutation
  wraps into the i16 range through `wrap16` (two's-complement wrapping, the
  release-build semantics of `+= 1` / `-= 1`; debug builds abort at the very
  point where `wrap16` departs from plain arithmetic).  `insert` stores the
  in-range literal 1; `cleanup` and the display record only read the field.
- The `HashMap<Uuid, CachedNickelValue>` behind the mutex is modelled as an
  association list with HashMap semantics: `insert` replaces any entry with the
  same key, `get` finds the entry for a key, `remove` deletes it.  The mutex
  serialises operations, so each operation is a pure function from store to
  store.
-/

namespace NickelSpec

/-- JSON tree, modelling `serde_json::Value`. -/
inductive Json where
  | null
  | bool (b : Bool)
  | num (q : Rat)
  | str (s : String)
  | arr (items : List Json)
  | obj (fields : List (String × Json))

/-- Polymorphic storage for different types of Nickel objects,
modelling `enum NickelPluginObject` in src/cache.rs. -/
inductive NickelPluginObject where
  | jsonValue (json : Json)
  | serializedNickelTerm (json_representation : Option Json)
      (source_code : String) (type_info : String)
  | evaluatedValue (json : Json) (source_code : Option String)

/-- A cached Nickel value with metadata, modelling `struct CachedNickelValue`
in src/cache.rs. -/
structure CachedNickelValue where
  uuid : Nat
  value : NickelPluginObject
  created : Int
  span : Nat
  reference_count : Int

/-- The map guarded by the mutex inside `NickelCache`, as an association
list from identifier to entry. -/
abbrev Store := List (Nat × CachedNickelValue)

namespace Store

/-- Lookup by key, modelling `HashMap::get`. -/
def get : Store → Nat → Option CachedNickelValue
  | [], _ => none
  | (k, v) :: rest, id => if k = id then some v else get rest id

/-- Delete every binding of a key, modelling `HashMap::remove`
(a HashMap holds at most one binding per key; on a well-formed store
this removes at most one entry). -/
def removeKey : Store → Nat → Store
  | [], _ => []
  | (k, v) :: rest, id =>
      if k = id then removeKey rest id else (k, v) :: removeKey rest id

/-- Insert-or-replace a binding, modelling `HashMap::insert`. -/
def insertEntry (s : Store) (id : Nat) (v : CachedNickelValue) : Store :=
  (id, v) :: removeKey s id

/-- Number of entries, modelling `HashMap::len`. -/
def len (s : Store) : Nat := s.length

/-- Emptiness test, modelling `HashMap::is_empty`. -/
def isEmpty (s : Store) : Bool := List.isEmpty s

/-- Well-formedness of the association list as a map: all keys distinct.
Every store reachable through `NickelCache` operations satisfies this. -/
abbrev keysNodup (s : Store) : Prop := s.Pairwise (fun a b => a.1 ≠ b.1)

end Store

/-- Two's-complement wrap of an integer into the i16 range [-32768, 32767].
Models the release-build behaviour of arithmetic on the `i16` field
`reference_count` (`+= 1` / `-= 1` wrap on overflow there; debug builds abort
at exactly the point where `wrap16` differs from plain arithmetic). -/
def wrap16 (x : Int) : Int := (x + 32768) % 65536 - 32768

namespace NickelCache

/-- Insert a JSON value into the cache and return its UUID,
modelling `NickelCache::insert_json`.  The freshly generated UUID `id` and the
clock reading `now` are explicit arguments (see the module header). -/
def insert_json (s : Store) (value : Json) (span : Nat) (id : Nat) (now : Int) :
    Store × Nat :=
  (s.insertEntry id ⟨id, .jsonValue value, now, span, 1⟩, id)

/-- Insert a Nickel term representation into the cache and return its UUID,
modelling `NickelCache::insert_nickel_term`. -/
def insert_nickel_term (s : Store) (source_code : String)
    (json_representation : Option Json) (type_info : String) (span : Nat)
    (id : Nat) (now : Int) : Store × Nat :=
  (s.insertEntry id
      ⟨id, .serializedNickelTerm json_representation source_code type_info,
        now, span, 1⟩,
    id)

/-- Insert an evaluated value into the cache,
modelling `NickelCache::insert_evaluated`. -/
def insert_evaluated (s : Store) (json : Json) (source_code : Option String)
    (span : Nat) (id : Nat) (now : Int) : Store × Nat :=
  (s.insertEntry id ⟨id, .evaluatedValue json source_code, now, span, 1⟩, id)

/-- Get a cached value by UUID, modelling `NickelCache::get` (the Rust code
clones the entry out from under the lock, so the caller receives a copy). -/
def get (s : Store) (id : Nat) : Option CachedNickelValue := s.get id

/-- Increment reference count for a cached value,
modelling `NickelCache::increment_ref` (silent no-op when absent).  The i16
`+= 1` is modelled by `wrap16`; see the module header. -/
def increment_ref (s : Store) (id : Nat) : Store :=
  match s.get id with
  | some v =>
      s.insertEntry id { v with reference_count := wrap16 (v.reference_count + 1) }
  | none => s

/-- Decrement reference count for a cached value, removing the entry when the
count reaches 0, modelling `NickelCache::decrement_ref`.  Returns the new store
and the `bool` the Rust function returns (`true` exactly when the entry was
removed by this call).  The i16 `-= 1` is modelled by `wrap16`; the `≤ 0` test
runs on the already-decremented field, as in the source. -/
def decrement_ref (s : Store) (id : Nat) : Store × Bool :=
  match s.get id with
  | some v =>
      if wrap16 (v.reference_count - 1) ≤ 0 then (s.removeKey id, true)
      else (s.insertEntry id
              { v with reference_count := wrap16 (v.reference_count - 1) },
            false)
  | none => (s, false)

/-- Remove a cached item by UUID, modelling `NickelCache::remove`
(unconditional deletion; returns the removed entry when present). -/
def remove (s : Store) (id : Nat) : Store × Option CachedNickelValue :=
  (s.removeKey id, s.get id)

/-- Clean up old unused cache entries, modelling
`NickelCache::cleanup_old_entries`: retain an entry iff its reference count is
positive or it was created after the cutoff `now - max_age_hours`. -/
def cleanup_old_entries (s : Store) (now : Int) (max_age_hours : Int) : Store :=
  s.filter (fun p =>
    decide (0 < p.2.reference_count) ||
    decide (now - max_age_hours < p.2.created))

/-- Iterated `increment_ref` on one identifier (N host-side aliasing steps). -/
def applyIncs (s : Store) (id : Nat) : Nat → Store
  | 0 => s
  | n + 1 => applyIncs (increment_ref s id) id n

/-- Iterated `decrement_ref` on one identifier (M drop notifications),
keeping only the store. -/
def applyDecs (s : Store) (id : Nat) : Nat → Store
  | 0 => s
  | m + 1 => applyDecs (decrement_ref s id).1 id m

end NickelCache

/-- Substring test: `strContains hay needle` is true iff `needle` occurs
contiguously in `hay`.  Used to state which representation kinds an error
message does and does not name. -/
def strContains (hay needle : String) : Bool :=
  (List.range (hay.length + 1)).any
    (fun i => ((hay.toList.drop i).take needle.length) == needle.toList)

/-- A single insertion request: the representation arguments of one of the
three `NickelCache` insert operations, together with the UUID generated by
`Uuid::new_v4()` and the clock reading `Utc::now()` for that call (both
external inputs, see the module header). -/
inductive InsertOp where
  | json (value : Json) (span : Nat) (id : Nat) (now : Int)
  | nickelTerm (source_code : String) (json_representation : Option Json)
      (type_info : String) (span : Nat) (id : Nat) (now : Int)
  | evaluated (json : Json) (source_code : Option String) (span : Nat)
      (id : Nat) (now : Int)

/-- Run a sequence of insertions against a store, in order. -/
def runInserts (s : Store) : List InsertOp → Store
  | [] => s
  | op :: ops =>
      match op with
      | .json value span id now =>
          runInserts (NickelCache.insert_json s value span id now).1 ops
      | .nickelTerm sc jr ti span id now =>
          runInserts (NickelCache.insert_nickel_term s sc jr ti span id now).1 ops
      | .evaluated j sc span id now =>
          runInserts (NickelCache.insert_evaluated s j sc span id now).1 ops

namespace CachedNickelValue

/-- Get the JSON value if this entry has one,
modelling `CachedNickelValue::as_json`. -/
def as_json (v : CachedNickelValue) : Option Json :=
  match v.value with
  | .jsonValue json => some json
  | .evaluatedValue json _ => some json
  | .serializedNickelTerm (some json) _ _ => some json
  | .serializedNickelTerm none _ _ => none

/-- Get the source code if available,
modelling `CachedNickelValue::as_source_code`. -/
def as_source_code (v : CachedNickelValue) : Option String :=
  match v.value with
  | .serializedNickelTerm _ source_code _ => some source_code
  | .evaluatedValue _ (some code) => some code
  | _ => none

/-- Get the object type as a string for display,
modelling `CachedNickelValue::object_type`. -/
def object_type (v : CachedNickelValue) : String :=
  match v.value with
  | .jsonValue _ => "JsonValue"
  | .serializedNickelTerm _ _ _ => "NickelTerm"
  | .evaluatedValue _ _ => "EvaluatedValue"

/-- Check if this value can be evaluated to JSON,
modelling `CachedNickelValue::has_json_representation`. -/
def has_json_representation (v : CachedNickelValue) : Bool :=
  v.as_json.isSome

end CachedNickelValue

/-- A user-facing error, modelling `nu_protocol::LabeledError` as the pair of
the message given to `LabeledError::new` and the text given to `with_label`
(the span attached to the label is irrelevant to the claims and omitted). -/
structure LabeledError where
  msg : String
  label : String
deriving DecidableEq

/-- The Not-Found error every bridge accessor in
src/nickel/values/nu_nickel_value/mod.rs builds when the cache lookup misses. -/
def notFoundError : LabeledError :=
  ⟨"Cached Nickel value not found", "This Nickel value is no longer available"⟩

/-- The Type-Mismatch error `NuNickelValue::try_get_cached_json` builds when
the entry is present but has no JSON view. -/
def jsonMismatchError : LabeledError :=
  ⟨"Type mismatch", "Expected JSON value, found different type"⟩

/-- The Type-Mismatch error `NuNickelValue::try_get_cached_source_code` builds
when the entry is present but has no source text. -/
def sourceMismatchError : LabeledError :=
  ⟨"Type mismatch", "Expected Nickel term with source code, found different type"⟩

/-- A wrapper for Nickel values in Nushell, modelling `struct NuNickelValue`:
the serializable handle the host holds (identifier plus display type name). -/
structure NuNickelValue where
  id : Nat
  type_name : String

namespace NuNickelValue

/-- Try to get the cached JSON value from a host value, modelling
`NuNickelValue::try_get_cached_json`.  The Rust function first downcasts the
incoming `Value` to `NuNickelValueCustomValue` and returns `Ok(None)` when the
input is not such a handle; the argument `cv` models the downcast result. -/
def try_get_cached_json (s : Store) (cv : Option NuNickelValue) :
    Except LabeledError (Option Json) :=
  match cv with
  | none => .ok none
  | some h =>
      match NickelCache.get s h.id with
      | some cached_value =>
          match cached_value.as_json with
          | some json => .ok (some json)
          | none => .error jsonMismatchError
      | none => .error notFoundError

/-- Try to get the cached source code from a host value, modelling
`NuNickelValue::try_get_cached_source_code`. -/
def try_get_cached_source_code (s : Store) (cv : Option NuNickelValue) :
    Except LabeledError (Option String) :=
  match cv with
  | none => .ok none
  | some h =>
      match NickelCache.get s h.id with
      | some cached_value =>
          match cached_value.as_source_code with
          | some source => .ok (some source)
          | none => .error sourceMismatchError
      | none => .error notFoundError

/-- Try to get any cached value from a host value, modelling
`NuNickelValue::try_get_cached_value`.  The store is threaded through
explicitly so that the frame property (a failed resolve leaves the store
untouched) is expressible; the Rust body only ever reads under the lock. -/
def try_get_cached_value (s : Store) (cv : Option NuNickelValue) :
    Store × Except LabeledError (Option CachedNickelValue) :=
  match cv with
  | none => (s, .ok none)
  | some h =>
      match NickelCache.get s h.id with
      | some cached_value => (s, .ok (some cached_value))
      | none => (s, .error notFoundError)

end NuNickelValue

/-- The drop notification sink, modelling `NickelPlugin::custom_value_dropped`
in src/lib.rs: when the dropped custom value downcasts to a Nickel handle the
entry is removed (unconditionally, via `NickelCache::remove`); in every case
the callback returns `Ok(())`.  The argument `cv` models the downcast result. -/
def custom_value_dropped (s : Store) (cv : Option NuNickelValue) :
    Store × Except LabeledError Unit :=
  match cv with
  | some h => ((NickelCache.remove s h.id).1, .ok ())
  | none => (s, .ok ())

/-- The structured-value model of the host (`nu_protocol::Value`), restricted
to the constructors the embedded code produces. -/
inductive NuValue where
  | nothing
  | bool (b : Bool)
  | int (i : Int)
  | float (q : Rat)
  | string (s : String)
  | list (items : List NuValue)
  | record (fields : List (String × NuValue))

/-- Rendering of a `Uuid` as a string (`self.id.to_string()` in Rust); the
concrete digit format is irrelevant to the claims. -/
def uuidToString (id : Nat) : String := toString id

/-- Rendering of a timestamp as an RFC 3339 string
(`cached_value.created.to_rfc3339()` in Rust); the concrete date format is
irrelevant to the claims, only that the field is a string. -/
def toRfc3339 (t : Int) : String := toString t

/-- The custom value the host actually holds, modelling
`struct NuNickelValueCustomValue` (identifier, type name, and the optional
cached data that is skipped during serialization). -/
structure NuNickelValueCustomValue where
  id : Nat
  type_name : String
  cached_value : Option CachedNickelValue

/-- Materialization of a handle for direct display, modelling
`NuNickelValueCustomValue::to_base_value`: the produced record is modelled as
its ordered field list. -/
def to_base_value (cv : NuNickelValueCustomValue) : List (String × NuValue) :=
  let base := [("id", NuValue.string (uuidToString cv.id)),
               ("type", NuValue.string cv.type_name)]
  match cv.cached_value with
  | some cached_value =>
      base ++ [("object_type", NuValue.string cached_value.object_type),
               ("reference_count", NuValue.int cached_value.reference_count),
               ("created", NuValue.string (toRfc3339 cached_value.created))]
  | none => base ++ [("cached", NuValue.bool false)]

/-!
The evaluator-term converter of src/nickel/command/core/eval.rs.

`nickel_lang_core::term::Term` is modelled by the mutual inductive family
below: the six kinds the converter handles structurally, plus `other`, which
stands for every remaining `Term` variant (functions, contracts, let bindings,
...) and carries the string `format!("{:?}", value)` the fallback branch of
the Rust code would produce for it.  Record fields hold an optional value
(`Field::value : Option<RichTerm>`); the converter skips fields whose value is
absent.  The evaluator's arbitrary-precision numbers are modelled as `Rat`;
the narrowing `f64` conversion (`Value::float(n.into())`) is modelled as the
identity on that rational, so the precision loss itself is outside this
embedding.
-/

mutual
inductive Term where
  | null
  | bool (b : Bool)
  | num (n : Rat)
  | str (s : String)
  | array (items : TermList)
  | record (fields : FieldList)
  | other (dbg : String)
inductive TermList where
  | nil
  | cons (hd : Term) (tl : TermList)
inductive FieldList where
  | nil
  | fieldNone (name : String) (tl : FieldList)
  | fieldSome (name : String) (t : Term) (tl : FieldList)
end

mutual
/-- The recursive converter from evaluator terms to host values, modelling
`NickelEval::nickel_to_nu_value`.  Mirroring the Rust signature it returns a
`Result`; errors could only arise by propagation from recursive calls. -/
def nickel_to_nu_value : Term → Except LabeledError NuValue
  | .null => .ok .nothing
  | .bool b => .ok (.bool b)
  | .num n => .ok (.float n)
  | .str s => .ok (.string s)
  | .array ts =>
      match convertItems ts with
      | .ok values => .ok (.list values)
      | .error e => .error e
  | .record fs =>
      match convertFields fs with
      | .ok nu_record => .ok (.record nu_record)
      | .error e => .error e
  | .other dbg => .ok (.string dbg)

/-- The element loop of the `Term::Array` branch: convert each item in order,
propagating the first error. -/
def convertItems : TermList → Except LabeledError (List NuValue)
  | .nil => .ok []
  | .cons t ts =>
      match nickel_to_nu_value t with
      | .ok v =>
          match convertItems ts with
          | .ok vs => .ok (v :: vs)
          | .error e => .error e
      | .error e => .error e

/-- The field loop of the `Term::Record` branch: convert each field with a
value in order, skipping valueless fields, propagating the first error. -/
def convertFields : FieldList → Except LabeledError (List (String × NuValue))
  | .nil => .ok []
  | .fieldNone _ fs => convertFields fs
  | .fieldSome name t fs =>
      match nickel_to_nu_value t with
      | .ok v =>
          match convertFields fs with
          | .ok kvs => .ok ((name, v) :: kvs)
          | .error e => .error e
      | .error e => .error e
end

/-!  Basic lemmas about the association-list map. -/

namespace Store

theorem get_cons (k : Nat) (v : CachedNickelValue) (rest : Store) (id : Nat) :
    get ((k, v) :: rest) id = if k = id then some v else get rest id := rfl

theorem get_insertEntry_self (s : Store) (id : Nat) (v : CachedNickelValue) :
    (s.insertEntry id v).get id = some v := by
  simp [insertEntry, get]

theorem get_removeKey_self (s : Store) (id : Nat) :
    (s.removeKey id).get id = none := by
  induction s with
  | nil => rfl
  | cons p rest ih =>
      obtain ⟨k, w⟩ := p
      by_cases hk : k = id
      · simp [removeKey, hk, ih]
      · simp [removeKey, hk, get_cons, ih]

theorem get_none_of_keys_ne (s : Store) (id : Nat)
    (h : ∀ p ∈ s, p.1 ≠ id) : s.get id = none := by
  induction s with
  | nil => rfl
  | cons p rest ih =>
      obtain ⟨k, w⟩ := p
      have hk : k ≠ id := h (k, w) (List.mem_cons_self _ _)
      simp only [get_cons, if_neg hk]
      exact ih (fun q hq => h q (List.mem_cons_of_mem _ hq))

theorem removeKey_of_get_none (s : Store) (id : Nat)
    (h : s.get id = none) : s.removeKey id = s := by
  induction s with
  | nil => rfl
  | cons p rest ih =>
      obtain ⟨k, w⟩ := p
      by_cases hk : k = id
      · simp [get_cons, hk] at h
      · simp only [get_cons, if_neg hk] at h
        simp [removeKey, hk, ih h]

theorem removeKey_sublist (s : Store) (id : Nat) :
    List.Sublist (s.removeKey id) s := by
  induction s with
  | nil => exact List.Sublist.slnil
  | cons p rest ih =>
      obtain ⟨k, w⟩ := p
      by_cases hk : k = id
      · simp only [removeKey, if_pos hk]
        exact ih.cons _
      · simp only [removeKey, if_neg hk]
        exact ih.cons₂ _

theorem mem_removeKey_key_ne (s : Store) (id : Nat) (p : Nat × CachedNickelValue)
    (h : p ∈ s.removeKey id) : p.1 ≠ id := by
  induction s with
  | nil => simp [removeKey] at h
  | cons q rest ih =>
      obtain ⟨k, w⟩ := q
      by_cases hk : k = id
      · exact ih (by simpa [removeKey, hk] using h)
      · simp only [removeKey, if_neg hk, List.mem_cons] at h
        rcases h with h | h
        · simp [h, hk]
        · exact ih h

theorem keysNodup_insertEntry (s : Store) (id : Nat) (v : CachedNickelValue)
    (h : keysNodup s) : keysNodup (s.insertEntry id v) := by
  unfold insertEntry
  refine List.pairwise_cons.2 ⟨?_, ?_⟩
  · intro p hp
    exact fun hid => mem_removeKey_key_ne s id p hp hid.symm
  · exact h.sublist (removeKey_sublist s id)

theorem get_filter_of_get_none (s : Store) (q : Nat × CachedNickelValue → Bool)
    (id : Nat) (h : get s id = none) : get (s.filter q) id = none := by
  induction s with
  | nil => rfl
  | cons p rest ih =>
      obtain ⟨k, w⟩ := p
      by_cases hk : k = id
      · simp [get_cons, hk] at h
      · simp only [get_cons, if_neg hk] at h
        by_cases hq : q (k, w)
        · simp [List.filter_cons, hq, get_cons, hk, ih h]
        · simp [List.filter_cons, hq, ih h]

theorem get_filter_of_get_some (s : Store) (q : Nat × CachedNickelValue → Bool)
    (id : Nat) (v : CachedNickelValue)
    (hnd : keysNodup s) (h : get s id = some v) :
    get (s.filter q) id = if q (id, v) then some v else none := by
  induction s with
  | nil => simp [get] at h
  | cons p rest ih =>
      obtain ⟨k, w⟩ := p
      obtain ⟨hhead, htail⟩ := List.pairwise_cons.1 hnd
      by_cases hk : k = id
      · simp only [get_cons, if_pos hk] at h
        obtain rfl : w = v := by injection h
        subst hk
        have hrest : get rest k = none :=
          get_none_of_keys_ne rest k (fun p hp => (hhead p hp).symm)
        by_cases hq : q (k, w)
        · simp [List.filter_cons, hq, get_cons]
        · simp [List.filter_cons, hq, get_filter_of_get_none rest q k hrest]
      · simp only [get_cons, if_neg hk] at h
        by_cases hq : q (k, w)
        · simp [List.filter_cons, hq, get_cons, hk, ih htail h]
        · simp [List.filter_cons, hq, ih htail h]

end Store

/-!  Lemmas about the reference-counting operations. -/

theorem wrap16_eq_self (x : Int) (h1 : -32768 ≤ x) (h2 : x ≤ 32767) :
    wrap16 x = x := by
  simp only [wrap16]
  omega

theorem wrap16_lb (x : Int) : -32768 ≤ wrap16 x := by
  simp only [wrap16]
  omega

theorem wrap16_ub (x : Int) : wrap16 x ≤ 32767 := by
  simp only [wrap16]
  omega

theorem wrap16_wrap16_add (a b : Int) : wrap16 (wrap16 a + b) = wrap16 (a + b) := by
  simp only [wrap16]
  omega

namespace NickelCache

theorem increment_ref_get (s : Store) (id : Nat) (v : CachedNickelValue)
    (h : Store.get s id = some v) :
    Store.get (increment_ref s id) id =
      some ⟨v.uuid, v.value, v.created, v.span, wrap16 (v.reference_count + 1)⟩ := by
  unfold increment_ref
  show Store.get (match Store.get s id with
    | some v =>
        s.insertEntry id { v with reference_count := wrap16 (v.reference_count + 1) }
    | none => s) id = _
  rw [h]
  exact Store.get_insertEntry_self s id _

theorem decrement_ref_of_pos (s : Store) (id : Nat) (v : CachedNickelValue)
    (h : Store.get s id = some v) (hc : 0 < wrap16 (v.reference_count - 1)) :
    decrement_ref s id =
      (s.insertEntry id
          ⟨v.uuid, v.value, v.created, v.span, wrap16 (v.reference_count - 1)⟩,
        false) := by
  unfold decrement_ref
  show (match Store.get s id with
    | some v =>
        if wrap16 (v.reference_count - 1) ≤ 0 then (s.removeKey id, true)
        else (s.insertEntry id
                { v with reference_count := wrap16 (v.reference_count - 1) },
              false)
    | none => (s, false)) = _
  rw [h]
  show (if wrap16 (v.reference_count - 1) ≤ 0 then (s.removeKey id, true)
        else (s.insertEntry id
                { v with reference_count := wrap16 (v.reference_count - 1) },
              false)) = _
  rw [if_neg (by omega)]

theorem decrement_ref_of_nonpos (s : Store) (id : Nat) (v : CachedNickelValue)
    (h : Store.get s id = some v) (hc : wrap16 (v.reference_count - 1) ≤ 0) :
    decrement_ref s id = (s.removeKey id, true) := by
  unfold decrement_ref
  show (match Store.get s id with
    | some v =>
        if wrap16 (v.reference_count - 1) ≤ 0 then (s.removeKey id, true)
        else (s.insertEntry id
                { v with reference_count := wrap16 (v.reference_count - 1) },
              false)
    | none => (s, false)) = _
  rw [h]
  show (if wrap16 (v.reference_count - 1) ≤ 0 then (s.removeKey id, true)
        else (s.insertEntry id
                { v with reference_count := wrap16 (v.reference_count - 1) },
              false)) = _
  rw [if_pos hc]

theorem decrement_ref_of_none (s : Store) (id : Nat)
    (h : Store.get s id = none) : decrement_ref s id = (s, false) := by
  unfold decrement_ref
  show (match Store.get s id with
    | some v =>
        if wrap16 (v.reference_count - 1) ≤ 0 then (s.removeKey id, true)
        else (s.insertEntry id
                { v with reference_count := wrap16 (v.reference_count - 1) },
              false)
    | none => (s, false)) = _
  rw [h]

/-- Iterated increments in the overflow-free regime: while the count stays
within the i16 range, each `wrap16` is the identity and the count grows by
exactly one per call. -/
theorem applyIncs_get (id : Nat) :
    ∀ (n : Nat) (s : Store) (v : CachedNickelValue),
      Store.get s id = some v → -32768 ≤ v.reference_count →
      v.reference_count + n ≤ 32767 →
      Store.get (applyIncs s id n) id =
        some ⟨v.uuid, v.value, v.created, v.span, v.reference_count + n⟩ := by
  intro n
  induction n with
  | zero =>
      intro s v h _ _
      simpa using h
  | succ n ih =>
      intro s v h hlo hhi
      have hstep : wrap16 (v.reference_count + 1) = v.reference_count + 1 :=
        wrap16_eq_self _ (by omega) (by push_cast at hhi; omega)
      have h1 : Store.get (increment_ref s id) id =
          some ⟨v.uuid, v.value, v.created, v.span, v.reference_count + 1⟩ := by
        rw [increment_ref_get s id v h, hstep]
      have h2 := ih (increment_ref s id) _ h1
        (show (-32768 : Int) ≤ v.reference_count + 1 by omega)
        (show v.reference_count + 1 + (n : Int) ≤ 32767 by push_cast at hhi; omega)
      rw [show applyIncs s id (n + 1) = applyIncs (increment_ref s id) id n from rfl]
      rw [h2]
      congr 1
      simp only [CachedNickelValue.mk.injEq, true_and]
      push_cast
      ring

/-- Iterated increments in general: starting from an in-range count, n calls
leave the wrapped sum `wrap16 (count + n)` in the field (release-build
two's-complement semantics). -/
theorem applyIncs_get_wrap (id : Nat) :
    ∀ (n : Nat) (s : Store) (v : CachedNickelValue),
      Store.get s id = some v → -32768 ≤ v.reference_count →
      v.reference_count ≤ 32767 →
      Store.get (applyIncs s id n) id =
        some ⟨v.uuid, v.value, v.created, v.span, wrap16 (v.reference_count + n)⟩ := by
  intro n
  induction n with
  | zero =>
      intro s v h hlo hhi
      have : wrap16 (v.reference_count + ((0 : Nat) : Int)) = v.reference_count := by
        rw [show ((0 : Nat) : Int) = 0 from rfl, add_zero]
        exact wrap16_eq_self _ hlo hhi
      rw [show applyIncs s id 0 = s from rfl, h, this]
  | succ n ih =>
      intro s v h hlo hhi
      have h1 := increment_ref_get s id v h
      have h2 := ih (increment_ref s id) _ h1 (wrap16_lb _) (wrap16_ub _)
      rw [show applyIncs s id (n + 1) = applyIncs (increment_ref s id) id n from rfl]
      rw [h2]
      congr 1
      simp only [CachedNickelValue.mk.injEq, true_and]
      rw [wrap16_wrap16_add]
      congr 1
      push_cast
      ring

/-- Iterated decrements in the overflow-free regime: as long as fewer
decrements happen than the (in-range) count, each step stays in range and the
count shrinks by exactly one per call. -/
theorem applyDecs_get (id : Nat) :
    ∀ (m : Nat) (s : Store) (v : CachedNickelValue),
      Store.get s id = some v → v.reference_count ≤ 32767 →
      (m : Int) < v.reference_count →
      Store.get (applyDecs s id m) id =
        some ⟨v.uuid, v.value, v.created, v.span, v.reference_count - m⟩ := by
  intro m
  induction m with
  | zero =>
      intro s v h _ _
      simpa using h
  | succ m ih =>
      intro s v h hhi hm
      have hm' : ((m : Int) + 1) < v.reference_count := by push_cast at hm; omega
      have hstep : wrap16 (v.reference_count - 1) = v.reference_count - 1 :=
        wrap16_eq_self _ (by omega) (by omega)
      have hdec := decrement_ref_of_pos s id v h (by rw [hstep]; omega)
      have h1 : Store.get (decrement_ref s id).1 id =
          some ⟨v.uuid, v.value, v.created, v.span, v.reference_count - 1⟩ := by
        rw [hdec, hstep]
        exact Store.get_insertEntry_self s id _
      have h2 := ih (decrement_ref s id).1 _ h1
        (show v.reference_count - 1 ≤ 32767 by omega)
        (show (m : Int) < v.reference_count - 1 by omega)
      rw [show applyDecs s id (m + 1) = applyDecs (decrement_ref s id).1 id m from rfl]
      rw [h2]
      congr 1
      simp only [CachedNickelValue.mk.injEq, true_and]
      push_cast
      ring

theorem applyDecs_zero (s : Store) (id : Nat) : applyDecs s id 0 = s := rfl

theorem applyDecs_succ (s : Store) (id m : Nat) :
    applyDecs s id (m + 1) = applyDecs (decrement_ref s id).1 id m := rfl

theorem applyDecs_of_get_none (s : Store) (id : Nat)
    (h : Store.get s id = none) : ∀ k : Nat, applyDecs s id k = s := by
  intro k
  induction k with
  | zero => rfl
  | succ k ih =>
      rw [show applyDecs s id (k + 1) = applyDecs (decrement_ref s id).1 id k from
        rfl]
      rw [decrement_ref_of_none s id h]
      exact ih

end NickelCache

open NickelCache in
/-- Counterexample to C1 as stated: with the i16 reference count at its
release-build wrapping semantics, N = 32768 increments on a freshly inserted
entry wrap the count from 1 to -32767, so the very first decrement (M = 1 ≤ N)
wraps to -32768 ≤ 0, removes the entry and returns `true` — the entry is
absent although M ≤ N, refuting the unbounded claim.  (Debug builds would
already abort at the 32767th increment.) -/
theorem c1_overflow_counterexample :
    (1 : Nat) ≤ 32768 ∧
      (decrement_ref
          (applyIncs (insert_json [] Json.null 0 0 0).1 0 32768) 0).2 = true ∧
      Store.get
        (applyDecs (applyIncs (insert_json [] Json.null 0 0 0).1 0 32768) 0 1)
        0 = none := by
  have h0 : Store.get (insert_json [] Json.null 0 0 0).1 0 =
      some ⟨0, .jsonValue Json.null, 0, 0, 1⟩ :=
    Store.get_insertEntry_self [] 0 _
  have hN : Store.get (applyIncs (insert_json [] Json.null 0 0 0).1 0 32768) 0 =
      some ⟨0, .jsonValue Json.null, 0, 0, -32767⟩ := by
    have h := applyIncs_get_wrap 0 32768 _ _ h0 (by norm_num) (by norm_num)
    norm_num [wrap16] at h
    exact h
  have hdec := decrement_ref_of_nonpos _ 0 _ hN
    (show wrap16 ((-32767 : Int) - 1) ≤ 0 by norm_num [wrap16])
  have hdec1 : (decrement_ref
      (applyIncs (insert_json [] Json.null 0 0 0).1 0 32768) 0).1 =
      Store.removeKey (applyIncs (insert_json [] Json.null 0 0 0).1 0 32768) 0 := by
    rw [hdec]
  refine ⟨by norm_num, by rw [hdec], ?_⟩
  rw [applyDecs_succ, applyDecs_zero, hdec1]
  exact Store.get_removeKey_self _ 0

open NickelCache in
/-- C1 (amended): for an identifier freshly inserted via `insert_json`
(initial reference count 1) followed by N `increment_ref` calls and then M
`decrement_ref` calls, provided N ≤ 32766 so the i16 reference count never
overflows: whenever M ≤ N the entry is still present; when the decrement count
reaches 1 + N (one more decrement after N) that removing call returns `true`
and the entry is absent; and every further decrement on that identifier
returns `false` without error (`decrement_ref` is total and merely reports a
`Bool`).  For larger N the increment overflows the i16 count — debug builds
abort and release builds wrap, where the property fails (see the
counterexample at N = 32768). -/
theorem c1_refcount_pairing (s : Store) (value : Json) (span id : Nat)
    (now : Int) (N M : Nat) (hMN : M ≤ N) (hN32 : N ≤ 32766) :
    (Store.get
        (applyDecs (applyIncs (insert_json s value span id now).1 id N) id M)
        id).isSome = true ∧
      (decrement_ref
          (applyDecs (applyIncs (insert_json s value span id now).1 id N) id N)
          id).2 = true ∧
      Store.get
        (decrement_ref
            (applyDecs (applyIncs (insert_json s value span id now).1 id N) id N)
            id).1 id = none ∧
      ∀ k : Nat,
        (decrement_ref
            (applyDecs
              (decrement_ref
                  (applyDecs (applyIncs (insert_json s value span id now).1 id N)
                    id N) id).1
              id k)
            id).2 = false := by
  have h0 : Store.get (insert_json s value span id now).1 id =
      some ⟨id, .jsonValue value, now, span, 1⟩ :=
    Store.get_insertEntry_self s id _
  have hN : Store.get (applyIncs (insert_json s value span id now).1 id N) id =
      some ⟨id, .jsonValue value, now, span, 1 + N⟩ := by
    simpa using applyIncs_get id N _ _ h0
      (show (-32768 : Int) ≤ 1 by norm_num)
      (show (1 : Int) + N ≤ 32767 by omega)
  have hDM : Store.get
      (applyDecs (applyIncs (insert_json s value span id now).1 id N) id M) id =
      some ⟨id, .jsonValue value, now, span, 1 + N - M⟩ := by
    simpa using applyDecs_get id M _ _ hN
      (show (1 : Int) + N ≤ 32767 by omega)
      (show (M : Int) < 1 + N by omega)
  have hDN : Store.get
      (applyDecs (applyIncs (insert_json s value span id now).1 id N) id N) id =
      some ⟨id, .jsonValue value, now, span, 1 + N - N⟩ := by
    simpa using applyDecs_get id N _ _ hN
      (show (1 : Int) + N ≤ 32767 by omega)
      (show (N : Int) < 1 + N by omega)
  have hlast := decrement_ref_of_nonpos _ id _ hDN
    (show wrap16 ((1 : Int) + N - N - 1) ≤ 0 by simp only [wrap16]; omega)
  have habsent : Store.get
      (decrement_ref
          (applyDecs (applyIncs (insert_json s value span id now).1 id N) id N)
          id).1 id = none := by
    rw [hlast]
    exact Store.get_removeKey_self _ id
  refine ⟨by rw [hDM]; rfl, by rw [hlast], habsent, ?_⟩
  intro k
  rw [applyDecs_of_get_none _ id habsent k, decrement_ref_of_none _ id habsent]

/-- Witness for C1 at a concrete input: empty store, identifier 0, N = 2
increments, M = 1 decrements (both hypotheses discharged: 1 ≤ 2 and
2 ≤ 32766). -/
theorem c1_refcount_pairing_witness :
    1 ≤ 2 ∧ 2 ≤ 32766 ∧
      ((Store.get
          (NickelCache.applyDecs
            (NickelCache.applyIncs
              (NickelCache.insert_json [] Json.null 0 0 0).1 0 2) 0 1)
          0).isSome = true ∧
        (NickelCache.decrement_ref
            (NickelCache.applyDecs
              (NickelCache.applyIncs
                (NickelCache.insert_json [] Json.null 0 0 0).1 0 2) 0 2)
            0).2 = true ∧
        Store.get
          (NickelCache.decrement_ref
              (NickelCache.applyDecs
                (NickelCache.applyIncs
                  (NickelCache.insert_json [] Json.null 0 0 0).1 0 2) 0 2)
              0).1 0 = none ∧
        ∀ k : Nat,
          (NickelCache.decrement_ref
              (NickelCache.applyDecs
                (NickelCache.decrement_ref
                    (NickelCache.applyDecs
                      (NickelCache.applyIncs
                        (NickelCache.insert_json [] Json.null 0 0 0).1 0 2) 0 2)
                    0).1
                0 k)
              0).2 = false) :=
  ⟨by decide, by decide,
    c1_refcount_pairing [] Json.null 0 0 0 2 1 (by decide) (by decide)⟩

open NickelCache in
/-- C2 (amended): on a well-formed store the cleanup sweep removes an entry iff
its reference count is ≤ 0 AND its age is at least `max_age` (the code retains
an entry iff `reference_count > 0 || created > now - max_age`, so an entry
whose age equals `max_age` exactly is removed, not retained); consequently
every entry with positive reference count is retained regardless of age, and
every entry strictly younger than `max_age` is retained regardless of
reference count. -/
theorem c2_cleanup_iff (s : Store) (now max_age : Int) (id : Nat)
    (v : CachedNickelValue) (hnd : Store.keysNodup s)
    (h : Store.get s id = some v) :
    (Store.get (cleanup_old_entries s now max_age) id = none ↔
      v.reference_count ≤ 0 ∧ now - v.created ≥ max_age) ∧
    (Store.get (cleanup_old_entries s now max_age) id = some v ↔
      0 < v.reference_count ∨ now - v.created < max_age) := by
  have hrw : Store.get (cleanup_old_entries s now max_age) id =
      if (decide (0 < v.reference_count) ||
          decide (now - max_age < v.created)) = true
      then some v else none := by
    simpa [cleanup_old_entries] using
      Store.get_filter_of_get_some s
        (fun p => decide (0 < p.2.reference_count) ||
          decide (now - max_age < p.2.created)) id v hnd h
  by_cases hcond : 0 < v.reference_count ∨ now - max_age < v.created
  · have hb : (decide (0 < v.reference_count) ||
        decide (now - max_age < v.created)) = true := by
      rcases hcond with h1 | h2
      · simp [h1]
      · simp [h2]
    rw [hrw, if_pos hb]
    constructor
    · exact ⟨fun hnone => by simp at hnone, fun hrhs => (by omega : False).elim⟩
    · exact ⟨fun _ => by omega, fun _ => rfl⟩
  · have hb : (decide (0 < v.reference_count) ||
        decide (now - max_age < v.created)) = false := by
      simp only [Bool.or_eq_false_iff, decide_eq_false_iff_not]
      omega
    rw [hrw, hb, if_neg Bool.false_ne_true]
    constructor
    · exact ⟨fun _ => by omega, fun _ => rfl⟩
    · exact ⟨fun hno => by simp at hno, fun hrhs => (by omega : False).elim⟩

/-- Witness for C2 at a concrete input: a two-entry well-formed store, one
entry referenced and over-age (retained), looked up after a sweep. -/
theorem c2_cleanup_iff_witness :
    (Store.get
        (NickelCache.cleanup_old_entries
          [(0, ⟨0, NickelPluginObject.jsonValue Json.null, 0, 0, 1⟩),
           (1, ⟨1, NickelPluginObject.jsonValue Json.null, 0, 0, 0⟩)] 10 5) 0 =
        none ↔
      (1 : Int) ≤ 0 ∧ (10 : Int) - 0 ≥ 5) ∧
    (Store.get
        (NickelCache.cleanup_old_entries
          [(0, ⟨0, NickelPluginObject.jsonValue Json.null, 0, 0, 1⟩),
           (1, ⟨1, NickelPluginObject.jsonValue Json.null, 0, 0, 0⟩)] 10 5) 0 =
        some ⟨0, NickelPluginObject.jsonValue Json.null, 0, 0, 1⟩ ↔
      (0 : Int) < 1 ∨ (10 : Int) - 0 < 5) :=
  c2_cleanup_iff
    [(0, ⟨0, NickelPluginObject.jsonValue Json.null, 0, 0, 1⟩),
     (1, ⟨1, NickelPluginObject.jsonValue Json.null, 0, 0, 0⟩)] 10 5 0
    ⟨0, NickelPluginObject.jsonValue Json.null, 0, 0, 1⟩
    (by simp [Store.keysNodup]) rfl

/-- Counterexample to C2 as stated: the entry `(uuid 0, reference count 0,
created 0)` is removed by `cleanup_old_entries` at `now = 5`, `max_age = 5`,
although its age `5 - 0` equals and does not exceed `max_age`; so "removed iff
reference count ≤ 0 AND age exceeds max_age" fails at the boundary (the left
side holds, the right side does not: `0 ≤ 0` but `¬ (5 - 0 > 5)`). -/
theorem c2_cleanup_boundary_counterexample :
    Store.get
      (NickelCache.cleanup_old_entries
        [(0, ⟨0, NickelPluginObject.jsonValue Json.null, 0, 0, 0⟩)] 5 5) 0 =
      none ∧
    ¬ ((0 : Int) ≤ 0 ∧ (5 : Int) - 0 > 5) :=
  ⟨rfl, by omega⟩

/-- Counterexample to C3 as stated: a store holding, under identifier 0, a
Source Term entry with no derivable snapshot (`json_representation = None`);
the entry is present, yet `try_get_cached_json` returns an error (the
Type-Mismatch error), contradicting both "returns None (as a success) when the
representation is a Source Term with no derivable snapshot" and "returns an
error only when the handle's entry is wholly absent from the store". -/
theorem c3_snapshot_error_counterexample :
    (Store.get
        [(0, ⟨0, NickelPluginObject.serializedNickelTerm none "1 + 2" "Dyn",
            0, 0, 1⟩)] 0).isSome = true ∧
    NuNickelValue.try_get_cached_json
        [(0, ⟨0, NickelPluginObject.serializedNickelTerm none "1 + 2" "Dyn",
            0, 0, 1⟩)]
        (some ⟨0, "NickelTerm"⟩) = .error jsonMismatchError :=
  ⟨rfl, rfl⟩

open NuNickelValue in
/-- C3 (amended): for a handle whose entry is present, `try_get_cached_json`
returns the JSON snapshot whenever one is derivable and a Type-Mismatch error
(not a None success) when the stored representation is a Source Term with no
derivable snapshot; the Not-Found error is returned exactly when the entry is
wholly absent; and the None success arises only for inputs that are not Nickel
handles at all. -/
theorem c3_snapshot_accessor (s : Store) (id : Nat) (tn : String) :
    (∀ v, Store.get s id = some v →
      try_get_cached_json s (some ⟨id, tn⟩) =
        (match v.as_json with
         | some json => .ok (some json)
         | none => .error jsonMismatchError)) ∧
    (Store.get s id = none →
      try_get_cached_json s (some ⟨id, tn⟩) = .error notFoundError) ∧
    try_get_cached_json s none = .ok none := by
  refine ⟨?_, ?_, rfl⟩
  · intro v hv
    show (match NickelCache.get s id with
      | some cached_value =>
          match cached_value.as_json with
          | some json => Except.ok (some json)
          | none => Except.error jsonMismatchError
      | none => Except.error notFoundError) = _
    rw [show NickelCache.get s id = some v from hv]
  · intro hv
    show (match NickelCache.get s id with
      | some cached_value =>
          match cached_value.as_json with
          | some json => Except.ok (some json)
          | none => Except.error jsonMismatchError
      | none => Except.error notFoundError) = _
    rw [show NickelCache.get s id = none from hv]

/-- Witness for C3 at a concrete input: a present JSON entry resolves to its
snapshot. -/
theorem c3_snapshot_accessor_witness :
    NuNickelValue.try_get_cached_json
        [(0, ⟨0, NickelPluginObject.jsonValue Json.null, 0, 0, 1⟩)]
        (some ⟨0, "JsonValue"⟩) = .ok (some Json.null) :=
  (c3_snapshot_accessor
      [(0, ⟨0, NickelPluginObject.jsonValue Json.null, 0, 0, 1⟩)] 0 "JsonValue").1
    ⟨0, NickelPluginObject.jsonValue Json.null, 0, 0, 1⟩ rfl

/-- Counterexample to C4 as stated: on a present JSON entry (actual
representation kind "JsonValue") the source-text accessor does return the
Type-Mismatch error, but that error's text does not name the actual
representation kind anywhere — "JsonValue" occurs in neither the message nor
the label — refuting "whose message names both the expected and the actual
representation kind". -/
theorem c4_actual_kind_unnamed_counterexample :
    NuNickelValue.try_get_cached_source_code
        [(0, ⟨0, NickelPluginObject.jsonValue Json.null, 0, 0, 1⟩)]
        (some ⟨0, "JsonValue"⟩) = .error sourceMismatchError ∧
    CachedNickelValue.object_type
        ⟨0, NickelPluginObject.jsonValue Json.null, 0, 0, 1⟩ = "JsonValue" ∧
    strContains (sourceMismatchError.msg ++ sourceMismatchError.label)
        "JsonValue" = false :=
  ⟨rfl, rfl, by decide⟩

open NuNickelValue in
/-- C4 (amended): for a handle whose entry is present but holds a
representation without source text, `try_get_cached_source_code` yields the
Type-Mismatch error — distinct from the Not-Found error — whose text names the
expected representation kind (a Nickel term with source code) but describes
the actual representation only generically ("found different type"); no value
is silently returned. -/
theorem c4_source_mismatch (s : Store) (id : Nat) (tn : String)
    (v : CachedNickelValue) (hv : Store.get s id = some v)
    (hsrc : v.as_source_code = none) :
    try_get_cached_source_code s (some ⟨id, tn⟩) = .error sourceMismatchError ∧
    sourceMismatchError ≠ notFoundError ∧
    strContains sourceMismatchError.label "Nickel term" = true := by
  refine ⟨?_, by decide, by decide⟩
  show (match NickelCache.get s id with
    | some cached_value =>
        match cached_value.as_source_code with
        | some source => Except.ok (some source)
        | none => Except.error sourceMismatchError
    | none => Except.error notFoundError) = _
  rw [show NickelCache.get s id = some v from hv]
  show (match v.as_source_code with
    | some source => Except.ok (some source)
    | none => Except.error sourceMismatchError) = _
  rw [hsrc]

/-- Witness for C4 at a concrete input: an evaluated entry with no attached
source text. -/
theorem c4_source_mismatch_witness :
    NuNickelValue.try_get_cached_source_code
        [(0, ⟨0, NickelPluginObject.evaluatedValue Json.null none, 0, 0, 1⟩)]
        (some ⟨0, "EvaluatedValue"⟩) = .error sourceMismatchError ∧
    sourceMismatchError ≠ notFoundError ∧
    strContains sourceMismatchError.label "Nickel term" = true :=
  c4_source_mismatch
    [(0, ⟨0, NickelPluginObject.evaluatedValue Json.null none, 0, 0, 1⟩)]
    0 "EvaluatedValue"
    ⟨0, NickelPluginObject.evaluatedValue Json.null none, 0, 0, 1⟩ rfl rfl

theorem runInserts_keysNodup :
    ∀ (ops : List InsertOp) (s : Store),
      Store.keysNodup s → Store.keysNodup (runInserts s ops) := by
  intro ops
  induction ops with
  | nil => exact fun s h => h
  | cons op ops ih =>
      intro s h
      cases op with
      | json value span id now =>
          exact ih _ (Store.keysNodup_insertEntry s id _ h)
      | nickelTerm sc jr ti span id now =>
          exact ih _ (Store.keysNodup_insertEntry s id _ h)
      | evaluated j sc span id now =>
          exact ih _ (Store.keysNodup_insertEntry s id _ h)

/-- C5: every insert operation is a total function (it cannot fail), returns
the freshly generated identifier, and stores the given representation wrapped
with reference count exactly 1 and the supplied current timestamp; and across
every sequence of insertions starting from the empty store, no two live
entries ever share an identifier (the keys of the store stay pairwise
distinct). -/
theorem c5_insert_fresh_unique :
    (∀ (s : Store) (value : Json) (span id : Nat) (now : Int),
      (NickelCache.insert_json s value span id now).2 = id ∧
      Store.get (NickelCache.insert_json s value span id now).1 id =
        some ⟨id, .jsonValue value, now, span, 1⟩) ∧
    (∀ (s : Store) (sc : String) (jr : Option Json) (ti : String)
        (span id : Nat) (now : Int),
      (NickelCache.insert_nickel_term s sc jr ti span id now).2 = id ∧
      Store.get (NickelCache.insert_nickel_term s sc jr ti span id now).1 id =
        some ⟨id, .serializedNickelTerm jr sc ti, now, span, 1⟩) ∧
    (∀ (s : Store) (j : Json) (sc : Option String) (span id : Nat) (now : Int),
      (NickelCache.insert_evaluated s j sc span id now).2 = id ∧
      Store.get (NickelCache.insert_evaluated s j sc span id now).1 id =
        some ⟨id, .evaluatedValue j sc, now, span, 1⟩) ∧
    (∀ ops : List InsertOp, Store.keysNodup (runInserts [] ops)) :=
  ⟨fun s _ _ _ _ => ⟨rfl, Store.get_insertEntry_self s _ _⟩,
   fun s _ _ _ _ _ _ => ⟨rfl, Store.get_insertEntry_self s _ _⟩,
   fun s _ _ _ _ _ => ⟨rfl, Store.get_insertEntry_self s _ _⟩,
   fun ops => runInserts_keysNodup ops [] List.Pairwise.nil⟩

/-- C6: a drop notification whose identifier is no longer present in the store
is a no-op (the store is returned unchanged) and reports success, never an
error. -/
theorem c6_drop_absent_noop (s : Store) (id : Nat) (tn : String)
    (h : Store.get s id = none) :
    custom_value_dropped s (some ⟨id, tn⟩) = (s, Except.ok ()) := by
  show ((NickelCache.remove s id).1, Except.ok ()) = (s, Except.ok ())
  rw [show (NickelCache.remove s id).1 = Store.removeKey s id from rfl]
  rw [Store.removeKey_of_get_none s id h]

/-- Witness for C6 at a concrete input: dropping identifier 0 against a store
that only holds identifier 1. -/
theorem c6_drop_absent_noop_witness :
    custom_value_dropped
        [(1, ⟨1, NickelPluginObject.jsonValue Json.null, 0, 0, 1⟩)]
        (some ⟨0, "NickelValue"⟩) =
      ([(1, ⟨1, NickelPluginObject.jsonValue Json.null, 0, 0, 1⟩)],
        Except.ok ()) :=
  c6_drop_absent_noop
    [(1, ⟨1, NickelPluginObject.jsonValue Json.null, 0, 0, 1⟩)] 0 "NickelValue"
    rfl

/-- C7: resolving a handle whose entry is absent returns the Not-Found error
and leaves the store completely unchanged — in particular its `len()` is
unaffected and no reference count is mutated by the failed resolve. -/
theorem c7_resolve_absent_frame (s : Store) (id : Nat) (tn : String)
    (h : Store.get s id = none) :
    NuNickelValue.try_get_cached_value s (some ⟨id, tn⟩) =
      (s, Except.error notFoundError) ∧
    Store.len (NuNickelValue.try_get_cached_value s (some ⟨id, tn⟩)).1 =
      Store.len s := by
  have h1 : NuNickelValue.try_get_cached_value s (some ⟨id, tn⟩) =
      (s, Except.error notFoundError) := by
    show (match NickelCache.get s id with
      | some cached_value => (s, Except.ok (some cached_value))
      | none => (s, Except.error notFoundError)) = _
    rw [show NickelCache.get s id = none from h]
  exact ⟨h1, by rw [h1]⟩

/-- Witness for C7 at a concrete input: resolving identifier 7 against a
one-entry store that does not contain it. -/
theorem c7_resolve_absent_frame_witness :
    NuNickelValue.try_get_cached_value
        [(1, ⟨1, NickelPluginObject.jsonValue Json.null, 0, 0, 1⟩)]
        (some ⟨7, "JsonValue"⟩) =
      ([(1, ⟨1, NickelPluginObject.jsonValue Json.null, 0, 0, 1⟩)],
        Except.error notFoundError) ∧
    Store.len
        (NuNickelValue.try_get_cached_value
          [(1, ⟨1, NickelPluginObject.jsonValue Json.null, 0, 0, 1⟩)]
          (some ⟨7, "JsonValue"⟩)).1 =
      Store.len [(1, ⟨1, NickelPluginObject.jsonValue Json.null, 0, 0, 1⟩)] :=
  c7_resolve_absent_frame
    [(1, ⟨1, NickelPluginObject.jsonValue Json.null, 0, 0, 1⟩)] 7 "JsonValue"
    rfl

/-- C9: the display record produced for a handle always starts with a string
field `id` and a string field `type`; when cached data is attached it
additionally contains exactly `object_type` (string), `reference_count`
(integer) and `created` (timestamp string), and otherwise it instead contains
the single extra field `cached = false`. -/
theorem c9_display_record :
    (∀ (id : Nat) (tn : String) (c : CachedNickelValue),
      to_base_value ⟨id, tn, some c⟩ =
        [("id", NuValue.string (uuidToString id)),
         ("type", NuValue.string tn),
         ("object_type", NuValue.string c.object_type),
         ("reference_count", NuValue.int c.reference_count),
         ("created", NuValue.string (toRfc3339 c.created))]) ∧
    (∀ (id : Nat) (tn : String),
      to_base_value ⟨id, tn, none⟩ =
        [("id", NuValue.string (uuidToString id)),
         ("type", NuValue.string tn),
         ("cached", NuValue.bool false)]) :=
  ⟨fun _ _ _ => rfl, fun _ _ => rfl⟩

/-- C10: when the drop notification fires for a handle whose entry is still
present, the entry is removed unconditionally — the sink calls `remove`, not
`decrement_ref` — so even an entry with reference count greater than 1 is
absent after a single notification, which still reports success. -/
theorem c10_drop_removes_unconditionally (s : Store) (id : Nat) (tn : String)
    (v : CachedNickelValue) (h : Store.get s id = some v) :
    Store.get (custom_value_dropped s (some ⟨id, tn⟩)).1 id = none ∧
    (custom_value_dropped s (some ⟨id, tn⟩)).2 = Except.ok () := by
  refine ⟨?_, rfl⟩
  show Store.get (Store.removeKey s id) id = none
  exact Store.get_removeKey_self s id

/-- Witness for C10 at a concrete input: an entry with reference count 5 is
gone after a single drop notification. -/
theorem c10_drop_removes_unconditionally_witness :
    Store.get
        (custom_value_dropped
          [(0, ⟨0, NickelPluginObject.jsonValue Json.null, 0, 0, 5⟩)]
          (some ⟨0, "JsonValue"⟩)).1 0 = none ∧
    (custom_value_dropped
        [(0, ⟨0, NickelPluginObject.jsonValue Json.null, 0, 0, 5⟩)]
        (some ⟨0, "JsonValue"⟩)).2 = Except.ok () :=
  c10_drop_removes_unconditionally
    [(0, ⟨0, NickelPluginObject.jsonValue Json.null, 0, 0, 5⟩)] 0 "JsonValue"
    ⟨0, NickelPluginObject.jsonValue Json.null, 0, 0, 5⟩ rfl

mutual

theorem nickel_to_nu_value_total :
    (t : Term) → ∃ v, nickel_to_nu_value t = Except.ok v
  | .null => ⟨.nothing, rfl⟩
  | .bool b => ⟨.bool b, rfl⟩
  | .num n => ⟨.float n, rfl⟩
  | .str s => ⟨.string s, rfl⟩
  | .array ts => by
      obtain ⟨vs, h⟩ := convertItems_total ts
      exact ⟨.list vs, by simp only [nickel_to_nu_value, h]⟩
  | .record fs => by
      obtain ⟨kvs, h⟩ := convertFields_total fs
      exact ⟨.record kvs, by simp only [nickel_to_nu_value, h]⟩
  | .other dbg => ⟨.string dbg, rfl⟩

theorem convertItems_total :
    (ts : TermList) → ∃ vs, convertItems ts = Except.ok vs
  | .nil => ⟨[], rfl⟩
  | .cons t ts => by
      obtain ⟨v, h1⟩ := nickel_to_nu_value_total t
      obtain ⟨vs, h2⟩ := convertItems_total ts
      exact ⟨v :: vs, by simp only [convertItems, h1, h2]⟩

theorem convertFields_total :
    (fs : FieldList) → ∃ kvs, convertFields fs = Except.ok kvs
  | .nil => ⟨[], rfl⟩
  | .fieldNone name fs => by
      obtain ⟨kvs, h⟩ := convertFields_total fs
      exact ⟨kvs, by simp only [convertFields, h]⟩
  | .fieldSome name t fs => by
      obtain ⟨v, h1⟩ := nickel_to_nu_value_total t
      obtain ⟨kvs, h2⟩ := convertFields_total fs
      exact ⟨(name, v) :: kvs, by simp only [convertFields, h1, h2]⟩

end

/-- C8: the term-to-host-value converter maps null to nothing, booleans to
booleans, numbers to host floats (the arbitrary-precision rational narrowed to
the float slot), strings to strings, arrays to lists recursing per element in
order, and records to keyed records recursing per field in order (fields
without a value are skipped); every other term kind becomes its textual
fallback representation; and the conversion never fails. -/
theorem c8_converter_total_map :
    nickel_to_nu_value .null = Except.ok .nothing ∧
    (∀ b, nickel_to_nu_value (.bool b) = Except.ok (.bool b)) ∧
    (∀ n, nickel_to_nu_value (.num n) = Except.ok (.float n)) ∧
    (∀ s, nickel_to_nu_value (.str s) = Except.ok (.string s)) ∧
    (∀ ts, nickel_to_nu_value (.array ts) =
      match convertItems ts with
      | .ok values => Except.ok (.list values)
      | .error e => Except.error e) ∧
    convertItems .nil = Except.ok [] ∧
    (∀ t ts, convertItems (.cons t ts) =
      match nickel_to_nu_value t with
      | .ok v =>
          match convertItems ts with
          | .ok vs => Except.ok (v :: vs)
          | .error e => Except.error e
      | .error e => Except.error e) ∧
    (∀ fs, nickel_to_nu_value (.record fs) =
      match convertFields fs with
      | .ok nu_record => Except.ok (.record nu_record)
      | .error e => Except.error e) ∧
    convertFields .nil = Except.ok [] ∧
    (∀ name fs, convertFields (.fieldNone name fs) = convertFields fs) ∧
    (∀ name t fs, convertFields (.fieldSome name t fs) =
      match nickel_to_nu_value t with
      | .ok v =>
          match convertFields fs with
          | .ok kvs => Except.ok ((name, v) :: kvs)
          | .error e => Except.error e
      | .error e => Except.error e) ∧
    (∀ dbg, nickel_to_nu_value (.other dbg) = Except.ok (.string dbg)) ∧
    (∀ t, ∃ v, nickel_to_nu_value t = Except.ok v) :=
  ⟨rfl, fun _ => rfl, fun _ => rfl, fun _ => rfl,
   fun ts => by simp only [nickel_to_nu_value],
   rfl,
   fun t ts => by simp only [convertItems],
   fun fs => by simp only [nickel_to_nu_value],
   rfl,
   fun name fs => by simp only [convertFields],
   fun name t fs => by simp only [convertFields],
   fun _ => rfl,
   nickel_to_nu_value_total⟩

end NickelSpec
